import Mathlib

/-!
Shallow embedding of the `sql-tables-parser` repository (canonical variant:
the map-catalog implementation of `SqlTableExtractor`), together with proofs
settling the frozen claims about it.

Strings are modelled as their `List Char` data; the JavaScript whitespace
class `\s` is modelled by its ASCII members (space, tab, newline, carriage
return, vertical tab, form feed), which covers every input exercised by the
repository.  JavaScript `Map`s are modelled as insertion-ordered association
lists, and JavaScript `Set` accumulation as first-occurrence deduplication.
-/

namespace SqlTablesParser

/-- ASCII members of the JavaScript regex class `\s` (and of `String.trim`). -/
def isWsB (c : Char) : Bool :=
  c = ' ' || c = '\t' || c = '\n' || c = '\r' || c = '\x0b' || c = '\x0c'

/-- The double-quote heuristic of `removeCommentsAndStrings`:
`/[=!<>]\s*$/.test(result.slice(-10))` where `acc` is the emitted output in
reverse order.  The slice's last non-whitespace character (searched within the
last ten characters) must be a comparison operator. -/
def isLit (acc : List Char) : Bool :=
  match (acc.take 10).dropWhile isWsB with
  | [] => false
  | c :: _ => c = '=' || c = '!' || c = '<' || c = '>'

/-- Skip loop for block comments, entered just after `/*` has been consumed:
`while (i < sql.length - 1) { if * and / then i += 2, break else i++ }`.
With fewer than two characters remaining the loop does not run, so a trailing
single character is left unconsumed. -/
def blockSkip : List Char → List Char
  | '*' :: '/' :: rest => rest
  | _ :: d :: rest => blockSkip (d :: rest)
  | l => l

/-- Skip loop for single-quoted string literals, entered just after the
opening quote: a doubled `''` is an escaped quote and does not close. -/
def squoteSkip : List Char → List Char
  | '\'' :: '\'' :: rest => squoteSkip rest
  | '\'' :: rest => rest
  | _ :: rest => squoteSkip rest
  | [] => []

/-- Skip loop for a double-quoted span being removed as a string literal,
entered just after the opening quote. -/
def dquoteSkip : List Char → List Char
  | '"' :: rest => rest
  | _ :: rest => dquoteSkip rest
  | [] => []

/-- The character loop of `removeCommentsAndStrings`.  `acc` is the output
built so far, in reverse order; `fuel` is structural fuel (each loop
iteration consumes at least one input character, so fuel equal to the input
length always suffices). -/
def scrubGo : Nat → List Char → List Char → List Char
  | _, acc, [] => acc.reverse
  | 0, acc, _ :: _ => acc.reverse
  | fuel + 1, acc, c :: cs =>
    if c = '-' && cs.head? == some '-' then
      scrubGo fuel acc (cs.dropWhile (fun x => x ≠ '\n'))
    else if c = '/' && cs.head? == some '*' then
      scrubGo fuel acc (blockSkip cs.tail)
    else if c = '\'' then
      scrubGo fuel (' ' :: acc) (squoteSkip cs)
    else if c = '"' then
      if isLit acc then
        scrubGo fuel (' ' :: acc) (dquoteSkip cs)
      else
        scrubGo fuel ('"' :: acc) cs
    else
      scrubGo fuel (c :: acc) cs

/-- The final `result.replace(/\s+/g, ' ')`: collapse every maximal run of
whitespace to a single space. -/
def collapseWs : List Char → List Char
  | [] => []
  | [c] => if isWsB c then [' '] else [c]
  | c :: d :: cs =>
    if isWsB c && isWsB d then collapseWs (d :: cs)
    else (if isWsB c then ' ' else c) :: collapseWs (d :: cs)

/-- The final `.trim()`: drop leading and trailing whitespace. -/
def trimList (l : List Char) : List Char :=
  ((l.dropWhile isWsB).reverse.dropWhile isWsB).reverse

/-- Whitespace normalization applied at the end of the scrubber. -/
def normalizeWs (l : List Char) : List Char :=
  trimList (collapseWs l)

/-- `SqlTableExtractor.removeCommentsAndStrings` (the "scrub" of the spec):
one pass removing comments and string literals, then whitespace
normalization. -/
def removeCommentsAndStrings (sql : String) : String :=
  String.mk (normalizeWs (scrubGo sql.toList.length [] sql.toList))

/-! ## Keyword configuration (`sql-keywords-config`, `defaultSqlKeywords.default`) -/

/-- The default keyword list from `defaultSqlKeywords.default`. -/
def defaultKeywords : List String :=
  ["FROM", "JOIN", "INNER JOIN", "LEFT JOIN", "RIGHT JOIN", "FULL JOIN",
   "CROSS JOIN", "OUTER JOIN", "INTO", "UPDATE", "DELETE FROM", "INSERT INTO",
   "REPLACE INTO", "UPSERT INTO", "MERGE INTO", "USING"]

/-! ## The scanning pattern

The extraction regex is
`(?:kw1|kw2|...)\s+((?:\[[^\]]+\]|"[^"]+"|`...`|[\w@#]+)(?:\.(...))*)` with
flags `gi`, executed with `exec` in a loop.  Because no identifier segment can
start with a whitespace character, the greedy `\s+` never backtracks, and the
alternation tries the keywords in list order; both facts make the scan
deterministic and let it be modelled by a hand-rolled scanner. -/

/-- Case-insensitive literal test: does `s` start with `kw` (ASCII folding,
as the `i` flag gives for the repository's keywords)? -/
def ciStartsWith (s kw : List Char) : Bool :=
  (s.take kw.length).map Char.toLower == kw.map Char.toLower

/-- Characters of the bare-identifier class `[\w@#]`. -/
def isWordChar (c : Char) : Bool :=
  c.isAlpha || c.isDigit || c = '_' || c = '@' || c = '#'

/-- One delimited identifier segment `openC [^closeC]+ closeC`; returns the
matched text (delimiters included) and the rest. -/
def quotedSeg (openC closeC : Char) (s : List Char) : Option (List Char × List Char) :=
  match s with
  | [] => none
  | c :: rest =>
    if c = openC then
      let content := rest.takeWhile (fun x => x ≠ closeC)
      if !content.isEmpty && content.length < rest.length then
        some (openC :: content ++ [closeC], rest.drop (content.length + 1))
      else none
    else none

/-- A bare identifier segment `[\w@#]+`. -/
def bareSeg (s : List Char) : Option (List Char × List Char) :=
  let content := s.takeWhile isWordChar
  if content.isEmpty then none else some (content, s.drop content.length)

/-- One identifier segment: the regex alternatives in order
(bracketed, double-quoted, backtick-quoted, bare). -/
def seg (s : List Char) : Option (List Char × List Char) :=
  (quotedSeg '[' ']' s).orElse fun _ =>
  (quotedSeg '"' '"' s).orElse fun _ =>
  (quotedSeg (Char.ofNat 96) (Char.ofNat 96) s).orElse fun _ =>
  bareSeg s

/-- The greedy `(?:\.(segment))*` chain; each iteration consumes at least two
characters, so fuel equal to the remaining length suffices. -/
def chainMore : Nat → List Char → List Char → List Char × List Char
  | 0, acc, r => (acc, r)
  | fuel + 1, acc, r =>
    match r with
    | '.' :: r' =>
      match seg r' with
      | some (sg, r2) => chainMore fuel (acc ++ '.' :: sg) r2
      | none => (acc, r)
    | _ => (acc, r)

/-- The whole captured identifier expression: a first segment followed by the
greedy dot chain. -/
def identAt (s : List Char) : Option (List Char × List Char) :=
  match seg s with
  | none => none
  | some (sg, r) => some (chainMore r.length sg r)

/-- Try the pattern anchored at the start of `s`: the first keyword (in
alternation order) that is a case-insensitive literal at `s` and is followed
by at least one whitespace character and an identifier.  Returns
`(match0, capture, rest)` — the regex `match[0]`, `match[1]` and the text
after the match. -/
def matchHere (patterns : List (List Char)) (s : List Char) :
    Option (List Char × List Char × List Char) :=
  patterns.findSome? fun kw =>
    if ciStartsWith s kw then
      let kwText := s.take kw.length
      let after := s.drop kw.length
      let ws := after.takeWhile isWsB
      if ws.isEmpty then none
      else
        match identAt (after.drop ws.length) with
        | some (id, rest) => some (kwText ++ ws ++ id, id, rest)
        | none => none
    else none

/-- The `regex.exec` loop with the `g` flag: leftmost match at or after the
current position, resuming at each match's end.  Fuel equal to the text
length suffices since every step consumes at least one character. -/
def scanGo (patterns : List (List Char)) : Nat → List Char → List (List Char × List Char × List Char)
  | 0, _ => []
  | _, [] => []
  | fuel + 1, s@(_ :: cs) =>
    match matchHere patterns s with
    | some (m0, id, rest) => (m0, id, rest) :: scanGo patterns fuel rest
    | none => scanGo patterns fuel cs

/-- All matches of the scanning pattern over the cleaned SQL, in order. -/
def scanAll (patterns : List (List Char)) (s : List Char) :
    List (List Char × List Char × List Char) :=
  scanGo patterns s.length s

/-! ## Cleaning captured identifiers -/

/-- One global replace `open([^close]+)close -> $1`, as in
`.replace(/\[([^\]]+)\]/g, '$1')` and its double-quote / backtick variants. -/
def stripQuoted (openC closeC : Char) : Nat → List Char → List Char
  | 0, l => l
  | _ + 1, [] => []
  | fuel + 1, c :: rest =>
    if c = openC then
      let content := rest.takeWhile (fun x => x ≠ closeC)
      if !content.isEmpty && content.length < rest.length then
        content ++ stripQuoted openC closeC fuel (rest.drop (content.length + 1))
      else c :: stripQuoted openC closeC fuel rest
    else c :: stripQuoted openC closeC fuel rest

/-- Wrapper supplying sufficient fuel. -/
def stripQuotedAll (openC closeC : Char) (l : List Char) : List Char :=
  stripQuoted openC closeC l.length l

/-- The `cleanTableName` computation: strip brackets, then double quotes,
then backticks, preserving content and dots. -/
def cleanIdent (ident : List Char) : String :=
  String.mk (stripQuotedAll (Char.ofNat 96) (Char.ofNat 96)
    (stripQuotedAll '"' '"' (stripQuotedAll '[' ']' ident)))

/-! ## Catalog (`Map<string, TableMetadata>`), resolution and membership -/

/-- Metadata for a known table, as in the `TableMetadata` interface. -/
structure TableMetadata where
  tableName : String
  fullyQualifiedName : String
  schema : Option String := none
  database : Option String := none
deriving DecidableEq, Repr

/-- A JavaScript `Map<string, TableMetadata>` as an insertion-ordered
association list. -/
abbrev Catalog := List (String × TableMetadata)

/-- `String.prototype.split('.')` on character data. -/
def splitDot : List Char → List (List Char)
  | [] => [[]]
  | c :: rest =>
    if c = '.' then [] :: splitDot rest
    else
      match splitDot rest with
      | sg :: segs => (c :: sg) :: segs
      | [] => [[c]]

/-- `table.includes('.') ? table.split('.').pop()! : table`. -/
def tableWithoutSchema (s : String) : String :=
  if s.toList.contains '.' then String.mk ((splitDot s.toList).getLastD []) else s

/-- The `for (const [key, metadata] of knownTables)` loop of
`resolveTableName`. -/
def resolveLoop (tableName bare : String) : Catalog → String
  | [] => tableName
  | (key, md) :: rest =>
    if key = tableName then md.fullyQualifiedName
    else if md.tableName = bare then md.fullyQualifiedName
    else if md.fullyQualifiedName = tableName then md.fullyQualifiedName
    else resolveLoop tableName bare rest

/-- `SqlTableExtractor.resolveTableName`: exact-key lookup (`has`/`get`)
first, then the iteration checking key, bare table name and fully qualified
name. -/
def resolveTableName (tableName : String) (knownTables : Option Catalog) : String :=
  match knownTables with
  | none => tableName
  | some kt =>
    match kt.find? (fun e => e.1 == tableName) with
    | some e => e.2.fullyQualifiedName
    | none => resolveLoop tableName (tableWithoutSchema tableName) kt

/-- `SqlTableExtractor.isKnownTable`: matched by key, bare table name, or
fully qualified name. -/
def isKnownTable (tableName : String) (knownTables : Catalog) : Bool :=
  let bare := tableWithoutSchema tableName
  knownTables.any fun e =>
    e.1 == tableName || e.2.tableName == bare || e.2.fullyQualifiedName == tableName

/-! ## The extraction engine (`SqlTableExtractor.extractTableNames`) -/

/-- The options bundle `TableExtractionOptions` (map-catalog variant). -/
structure TableExtractionOptions where
  knownTables : Option Catalog := none
  filterCTEs : Bool := false
  customKeywords : List String := []
  keywords : Option (List String) := none

/-- The result record `TableExtractionResult`. -/
structure TableExtractionResult where
  allTables : List String
  realTables : List String
  filteredCTEs : List String
deriving DecidableEq, Repr

/-- ASCII `String.prototype.toUpperCase` on character data. -/
def toUpperList (l : List Char) : List Char := l.map Char.toUpper

/-- Substring containment, as `String.prototype.includes`. -/
def startsWithSeq : List Char → List Char → Bool
  | _, [] => true
  | [], _ :: _ => false
  | c :: cs, d :: ds => c = d && startsWithSeq cs ds

/-- Does `l` contain `pat` as a contiguous subsequence? -/
def containsSeq : List Char → List Char → Bool
  | l, pat =>
    startsWithSeq l pat ||
      (match l with
       | [] => false
       | _ :: cs => containsSeq cs pat)

/-- The per-match keyword re-extraction
`match[0].match(new RegExp('^(' + keywordPattern + ')\\s+', 'i'))`, followed
by `.toUpperCase()`: the first keyword in alternation order that is a
case-insensitive literal at the start of `match[0]` and is followed by a
whitespace character. -/
def extractKeyword (patterns : List (List Char)) (m0 : List Char) : Option String :=
  patterns.findSome? fun kw =>
    if ciStartsWith m0 kw then
      match (m0.drop kw.length).head? with
      | some c => if isWsB c then some (String.mk (toUpperList (m0.take kw.length))) else none
      | none => none
    else none

/-- `keyword === 'FROM' || keyword.includes('JOIN') || keyword === 'USING'`. -/
def isFunctionContext (kw : String) : Bool :=
  kw = "FROM" || containsSeq kw.toList "JOIN".toList || kw = "USING"

/-- `/^\s*\(/.test(remainingText)`. -/
def isFunctionCall (rest : List Char) : Bool :=
  match (rest.dropWhile isWsB).head? with
  | some '(' => true
  | _ => false

/-- The complete suppression decision for one match: it looks like a function
call and the re-extracted keyword is in a table-source role. -/
def skipMatch (patterns : List (List Char)) (m0 rest : List Char) : Bool :=
  isFunctionCall rest &&
    (match extractKeyword patterns m0 with
     | some kw => isFunctionContext kw
     | none => false)

/-- The body of the `while ((match = regex.exec(cleanSql)))` loop: for each
match, either skip it (function-call heuristic) or clean, resolve and emit
its identifier.  The emitted sequence is the order in which
`extractedTables.add` is called. -/
def collectLoop (patterns : List (List Char)) (knownTables : Option Catalog) :
    List (List Char × List Char × List Char) → List String
  | [] => []
  | (m0, ident, rest) :: ms =>
    if skipMatch patterns m0 rest then collectLoop patterns knownTables ms
    else resolveTableName (cleanIdent ident) knownTables :: collectLoop patterns knownTables ms

/-- First-occurrence deduplication with an explicit set of already-seen
elements: the JavaScript `Set` insertion discipline. -/
def dedupFirstAux {α : Type} [DecidableEq α] (seen : List α) : List α → List α
  | [] => []
  | x :: xs => if x ∈ seen then dedupFirstAux seen xs else x :: dedupFirstAux (x :: seen) xs

/-- `Array.from(new Set(l))`: the distinct elements of `l` in
first-occurrence order. -/
def dedupFirst {α : Type} [DecidableEq α] (l : List α) : List α :=
  dedupFirstAux [] l

/-- Step 2 of `extractTableNames`: the effective keyword list.  An explicit
`keywords` list is used only when non-empty (`keywords && keywords.length > 0`),
else the defaults; custom keywords are appended; duplicates are removed
preserving first-seen order. -/
def effectiveKeywords (options : TableExtractionOptions) : List String :=
  let base :=
    match options.keywords with
    | some ks => if ks.length > 0 then ks else defaultKeywords
    | none => defaultKeywords
  let withCustom :=
    if options.customKeywords.length > 0 then base ++ options.customKeywords else base
  dedupFirst withCustom

/-- The sequence of resolved identifiers accepted by the scan loop, in match
order (before `Set` deduplication).  An empty alternation is the empty
pattern, hence the empty keyword; `effectiveKeywords` never actually returns
an empty list. -/
def resolvedCaptures (sql : String) (options : TableExtractionOptions) : List String :=
  let cleanSql := (removeCommentsAndStrings sql).toList
  let kws := effectiveKeywords options
  let patterns := (if kws.isEmpty then [""] else kws).map String.toList
  collectLoop patterns options.knownTables (scanAll patterns cleanSql)

/-- `SqlTableExtractor.extractTableNames`. -/
def extractTableNames (sql : String) (options : TableExtractionOptions := {}) :
    TableExtractionResult :=
  let allTables := dedupFirst (resolvedCaptures sql options)
  match options.knownTables, options.filterCTEs with
  | some kt, true =>
    { allTables := allTables
      realTables := allTables.filter fun t => isKnownTable t kt
      filteredCTEs := allTables.filter fun t => !(isKnownTable t kt) }
  | _, _ =>
    { allTables := allTables, realTables := allTables, filteredCTEs := [] }

/-- `SqlTableExtractor.getTableNamesSimple`: run the extraction with
`filterCTEs: !!knownTables` and return `realTables` when a catalog was given,
else `allTables`. -/
def getTableNamesSimple (sql : String) (knownTables : Option Catalog := none) : List String :=
  let result := extractTableNames sql
    { knownTables := knownTables, filterCTEs := knownTables.isSome }
  match knownTables with
  | some _ => result.realTables
  | none => result.allTables

/-! ## Claim C1: partition invariant -/

/-- C1.  For every SQL string, keyword configuration and catalog: when CTE
classification is enabled (`filterCTEs`) and a known-table catalog is
supplied, `allTables` is exactly the disjoint union of `realTables` and
`filteredCTEs` (as a permutation, each half a sublist of `allTables`, the two
halves disjoint); otherwise `realTables` equals `allTables` and
`filteredCTEs` is empty. -/
theorem extractTableNames_partition (sql : String) (opts : TableExtractionOptions) :
    (∀ kt, opts.knownTables = some kt → opts.filterCTEs = true →
      ((extractTableNames sql opts).realTables ++ (extractTableNames sql opts).filteredCTEs).Perm
          (extractTableNames sql opts).allTables ∧
        List.Sublist (extractTableNames sql opts).realTables (extractTableNames sql opts).allTables ∧
        List.Sublist (extractTableNames sql opts).filteredCTEs (extractTableNames sql opts).allTables ∧
        ∀ x, x ∈ (extractTableNames sql opts).realTables →
          x ∉ (extractTableNames sql opts).filteredCTEs) ∧
    ((opts.knownTables = none ∨ opts.filterCTEs = false) →
      (extractTableNames sql opts).realTables = (extractTableNames sql opts).allTables ∧
      (extractTableNames sql opts).filteredCTEs = []) := by
  obtain ⟨kts, fcte, ck, kws⟩ := opts
  constructor
  · intro kt h1 h2
    simp only at h1 h2
    subst h1; subst h2
    simp only [extractTableNames]
    refine ⟨List.filter_append_perm _ _, List.filter_sublist _, List.filter_sublist _, ?_⟩
    intro x hx hy
    simp only [List.mem_filter] at hx hy
    rw [hx.2] at hy
    simp at hy
  · intro h
    simp only at h
    rcases h with h | h
    · subst h; simp [extractTableNames]
    · subst h
      cases kts <;> simp [extractTableNames]

/-- C1 witness: the partition properties at the spec's CTE scenario. -/
theorem extractTableNames_partition_witness :
    ((extractTableNames
          "WITH temp AS (SELECT * FROM users) SELECT * FROM temp JOIN orders ON temp.id = orders.user_id"
          { knownTables := some [("users", ⟨"users", "users", none, none⟩),
                                 ("orders", ⟨"orders", "orders", none, none⟩)],
            filterCTEs := true }).realTables ++
        (extractTableNames
          "WITH temp AS (SELECT * FROM users) SELECT * FROM temp JOIN orders ON temp.id = orders.user_id"
          { knownTables := some [("users", ⟨"users", "users", none, none⟩),
                                 ("orders", ⟨"orders", "orders", none, none⟩)],
            filterCTEs := true }).filteredCTEs).Perm
      (extractTableNames
          "WITH temp AS (SELECT * FROM users) SELECT * FROM temp JOIN orders ON temp.id = orders.user_id"
          { knownTables := some [("users", ⟨"users", "users", none, none⟩),
                                 ("orders", ⟨"orders", "orders", none, none⟩)],
            filterCTEs := true }).allTables :=
  ((extractTableNames_partition _ _).1 _ rfl rfl).1

/-! ## Claim C2: no duplicates, first-occurrence order -/

theorem dedupFirstAux_mem {α : Type} [DecidableEq α] (seen : List α) (l : List α) (x : α) :
    x ∈ dedupFirstAux seen l ↔ x ∈ l ∧ x ∉ seen := by
  induction l generalizing seen with
  | nil => simp [dedupFirstAux]
  | cons a xs ih =>
    by_cases ha : a ∈ seen
    · simp only [dedupFirstAux, if_pos ha, ih, List.mem_cons]
      constructor
      · rintro ⟨hx, hs⟩
        exact ⟨Or.inr hx, hs⟩
      · rintro ⟨hx | hx, hs⟩
        · exact absurd (hx ▸ ha) hs
        · exact ⟨hx, hs⟩
    · simp only [dedupFirstAux, if_neg ha, List.mem_cons, ih]
      by_cases hxa : x = a
      · subst hxa
        simp [ha]
      · simp only [hxa, false_or]

theorem dedupFirstAux_nodup {α : Type} [DecidableEq α] (seen : List α) (l : List α) :
    (dedupFirstAux seen l).Nodup := by
  induction l generalizing seen with
  | nil => simp [dedupFirstAux]
  | cons a xs ih =>
    by_cases ha : a ∈ seen
    · simpa [dedupFirstAux, if_pos ha] using ih seen
    · simp only [dedupFirstAux, if_neg ha]
      refine List.nodup_cons.mpr ⟨?_, ih (a :: seen)⟩
      rw [dedupFirstAux_mem]
      rintro ⟨-, hs⟩
      exact hs (List.mem_cons_self _ _)

theorem dedupFirstAux_indexOf_lt {α : Type} [DecidableEq α] (seen : List α) (l : List α)
    (x y : α) (hx : x ∈ dedupFirstAux seen l) (hy : y ∈ dedupFirstAux seen l)
    (hlt : l.indexOf x < l.indexOf y) :
    (dedupFirstAux seen l).indexOf x < (dedupFirstAux seen l).indexOf y := by
  induction l generalizing seen with
  | nil => simp [dedupFirstAux] at hx
  | cons a xs ih =>
    have hxy : x ≠ y := by
      intro h
      subst h
      exact lt_irrefl _ hlt
    by_cases ha : a ∈ seen
    · rw [dedupFirstAux, if_pos ha] at hx hy ⊢
      have hxne : x ≠ a := by
        intro h
        exact ((dedupFirstAux_mem _ _ _).1 hx).2 (h ▸ ha)
      have hyne : y ≠ a := by
        intro h
        exact ((dedupFirstAux_mem _ _ _).1 hy).2 (h ▸ ha)
      have hlt' : xs.indexOf x < xs.indexOf y := by
        have hx' := List.indexOf_cons_ne (a := x) xs (Ne.symm hxne)
        have hy' := List.indexOf_cons_ne (a := y) xs (Ne.symm hyne)
        omega
      exact ih seen hx hy hlt'
    · rw [dedupFirstAux, if_neg ha] at hx hy ⊢
      by_cases hxa : x = a
      · subst hxa
        rw [List.indexOf_cons_self]
        have : (dedupFirstAux (x :: seen) xs).indexOf y + 1 =
            ((x :: dedupFirstAux (x :: seen) xs).indexOf y) := by
          rw [List.indexOf_cons_ne _ hxy]
        omega
      · by_cases hya : y = a
        · subst hya
          rw [List.indexOf_cons_self] at hlt
          omega
        · have hx' : x ∈ dedupFirstAux (a :: seen) xs := by
            rcases List.mem_cons.1 hx with h | h
            · exact absurd h hxa
            · exact h
          have hy' : y ∈ dedupFirstAux (a :: seen) xs := by
            rcases List.mem_cons.1 hy with h | h
            · exact absurd h hya
            · exact h
          have hlt' : xs.indexOf x < xs.indexOf y := by
            have h1 := List.indexOf_cons_ne (a := x) xs (Ne.symm hxa)
            have h2 := List.indexOf_cons_ne (a := y) xs (Ne.symm hya)
            omega
          have := ih (a :: seen) hx' hy' hlt'
          have h1 := List.indexOf_cons_ne (a := x) (dedupFirstAux (a :: seen) xs) (Ne.symm hxa)
          have h2 := List.indexOf_cons_ne (a := y) (dedupFirstAux (a :: seen) xs) (Ne.symm hya)
          omega

/-- The `allTables` field is always the first-occurrence deduplication of the
accepted, resolved capture sequence. -/
theorem extractTableNames_allTables (sql : String) (opts : TableExtractionOptions) :
    (extractTableNames sql opts).allTables = dedupFirst (resolvedCaptures sql opts) := by
  obtain ⟨kts, f, ck, kws⟩ := opts
  cases kts <;> cases f <;> simp [extractTableNames]

/-- C2.  `allTables` never contains duplicates; its elements are exactly the
resolved identifiers the scan accepted; and it lists them in first-occurrence
order: if `x`'s first capture precedes `y`'s first capture (smaller
`indexOf` in the capture sequence), `x` precedes `y` in `allTables` — later
repeats do not move an identifier's position. -/
theorem allTables_nodup_firstOccurrence (sql : String) (opts : TableExtractionOptions) :
    (extractTableNames sql opts).allTables.Nodup ∧
    (∀ x, x ∈ (extractTableNames sql opts).allTables ↔ x ∈ resolvedCaptures sql opts) ∧
    (∀ x y, x ∈ resolvedCaptures sql opts → y ∈ resolvedCaptures sql opts →
      (resolvedCaptures sql opts).indexOf x < (resolvedCaptures sql opts).indexOf y →
      (extractTableNames sql opts).allTables.indexOf x <
        (extractTableNames sql opts).allTables.indexOf y) := by
  rw [extractTableNames_allTables]
  refine ⟨dedupFirstAux_nodup _ _, ?_, ?_⟩
  · intro x
    rw [dedupFirst, dedupFirstAux_mem]
    simp
  · intro x y hx hy hlt
    have hx' : x ∈ dedupFirst (resolvedCaptures sql opts) := by
      rw [dedupFirst, dedupFirstAux_mem]
      simp [hx]
    have hy' : y ∈ dedupFirst (resolvedCaptures sql opts) := by
      rw [dedupFirst, dedupFirstAux_mem]
      simp [hy]
    exact dedupFirstAux_indexOf_lt [] _ x y hx' hy' hlt

/-- C2 witness: on a query where `users` recurs after `orders`, `allTables`
is duplicate-free and keeps `users` before `orders`. -/
theorem allTables_nodup_firstOccurrence_witness :
    (extractTableNames
        "SELECT * FROM users JOIN orders ON a = b JOIN users ON c = d" {}).allTables.Nodup ∧
    (extractTableNames
        "SELECT * FROM users JOIN orders ON a = b JOIN users ON c = d" {}).allTables.indexOf
        "users" <
      (extractTableNames
        "SELECT * FROM users JOIN orders ON a = b JOIN users ON c = d" {}).allTables.indexOf
        "orders" := by
  have h := allTables_nodup_firstOccurrence
    "SELECT * FROM users JOIN orders ON a = b JOIN users ON c = d" {}
  exact ⟨h.1, h.2.2 "users" "orders" (by decide) (by decide) (by decide)⟩

/-! ## Claim C3: an explicitly empty keyword list -/

/-- C3 counterexample: with `keywords: []` the engine does **not** yield
empty results — the empty list fails `keywords && keywords.length > 0`, so
the default keyword list is used and `users` is still extracted. -/
theorem emptyKeywords_counterexample :
    (extractTableNames "SELECT * FROM users" { keywords := some [] }).allTables = ["users"] ∧
      (["users"] : List String) ≠ [] := by
  constructor
  · decide
  · decide

/-- C3 amended: an explicitly empty `keywords` list is not an error; it is
treated exactly like an absent one (the engine falls back to the default
keyword list), for any SQL and any other options. -/
theorem emptyKeywords_amended (sql : String) (kt : Option Catalog) (f : Bool)
    (ck : List String) :
    extractTableNames sql ⟨kt, f, ck, some []⟩ = extractTableNames sql ⟨kt, f, ck, none⟩ := by
  simp [extractTableNames, resolvedCaptures, effectiveKeywords]

/-! ## Claim C4: double-quoted identifier spans -/

/-- One iteration of the scrub loop on an ordinary character (no comment
start, no quote) pushes the character and moves on. -/
theorem scrubGo_step_regular (f : Nat) (acc : List Char) (c : Char) (cs : List Char)
    (h1 : ¬(c = '-' ∧ cs.head? = some '-'))
    (h2 : ¬(c = '/' ∧ cs.head? = some '*'))
    (h3 : c ≠ '\'') (h4 : c ≠ '"') :
    scrubGo (f + 1) acc (c :: cs) = scrubGo f (c :: acc) cs := by
  have b1 : (decide (c = '-') && (cs.head? == some '-')) = false := by
    by_cases hc : c = '-'
    · have : ¬ cs.head? = some '-' := fun hh => h1 ⟨hc, hh⟩
      simp [hc, this]
    · simp [hc]
  have b2 : (decide (c = '/') && (cs.head? == some '*')) = false := by
    by_cases hc : c = '/'
    · have : ¬ cs.head? = some '*' := fun hh => h2 ⟨hc, hh⟩
      simp [hc, this]
    · simp [hc]
  simp only [scrubGo, b1, b2, if_neg h3, if_neg h4]
  simp

/-- One iteration of the scrub loop on a double quote classified as an
identifier (heuristic negative) emits just the quote character. -/
theorem scrubGo_step_identQuote (f : Nat) (acc : List Char) (cs : List Char)
    (h : isLit acc = false) :
    scrubGo (f + 1) acc ('"' :: cs) = scrubGo f ('"' :: acc) cs := by
  simp [scrubGo, h]

/-- Content that survives the ordinary scanning rules unchanged while being
copied character by character: no single or double quote, and no adjacent
pair starting a line or block comment. -/
def quoteSafe : List Char → Bool
  | [] => true
  | [c] => decide (c ≠ '\'' ∧ c ≠ '"')
  | c :: d :: cs =>
    decide (c ≠ '\'' ∧ c ≠ '"' ∧ ¬(c = '-' ∧ d = '-') ∧ ¬(c = '/' ∧ d = '*')) &&
      quoteSafe (d :: cs)

theorem quoteSafe_cons (c : Char) (cs : List Char) (h : quoteSafe (c :: cs) = true) :
    c ≠ '\'' ∧ c ≠ '"' ∧ ¬(c = '-' ∧ cs.head? = some '-') ∧
      ¬(c = '/' ∧ cs.head? = some '*') ∧ quoteSafe cs = true := by
  cases cs with
  | nil =>
    rw [quoteSafe, decide_eq_true_eq] at h
    exact ⟨h.1, h.2, by rintro ⟨-, hh⟩; simp at hh, by rintro ⟨-, hh⟩; simp at hh, rfl⟩
  | cons d ds =>
    rw [quoteSafe, Bool.and_eq_true, decide_eq_true_eq] at h
    obtain ⟨⟨hq, hd, hp1, hp2⟩, htail⟩ := h
    refine ⟨hq, hd, ?_, ?_, htail⟩
    · rintro ⟨hc, hh⟩
      simp only [List.head?_cons, Option.some.injEq] at hh
      exact hp1 ⟨hc, hh⟩
    · rintro ⟨hc, hh⟩
      simp only [List.head?_cons, Option.some.injEq] at hh
      exact hp2 ⟨hc, hh⟩

/-- Copying a quote-safe span: the scrub loop transfers it verbatim onto the
output until the closing double quote is reached. -/
theorem scrubGo_copy (content : List Char) :
    ∀ (f : Nat) (acc rest : List Char), quoteSafe content = true →
      scrubGo (content.length + f) acc (content ++ '"' :: rest) =
        scrubGo f (content.reverse ++ acc) ('"' :: rest) := by
  induction content with
  | nil => intro f acc rest _; simp
  | cons c cs ih =>
    intro f acc rest hsafe
    obtain ⟨h3, h4, hp1, hp2, htail⟩ := quoteSafe_cons c cs hsafe
    have hp1' : ¬(c = '-' ∧ (cs ++ '"' :: rest).head? = some '-') := by
      rintro ⟨hc, hh⟩
      cases cs with
      | nil => simp at hh
      | cons d ds =>
        simp only [List.cons_append, List.head?_cons, Option.some.injEq] at hh
        exact hp1 ⟨hc, by simp [hh]⟩
    have hp2' : ¬(c = '/' ∧ (cs ++ '"' :: rest).head? = some '*') := by
      rintro ⟨hc, hh⟩
      cases cs with
      | nil => simp at hh
      | cons d ds =>
        simp only [List.cons_append, List.head?_cons, Option.some.injEq] at hh
        exact hp2 ⟨hc, by simp [hh]⟩
    have step := scrubGo_step_regular (cs.length + f) acc c (cs ++ '"' :: rest) hp1' hp2' h3 h4
    calc scrubGo ((c :: cs).length + f) acc ((c :: cs) ++ '"' :: rest)
        = scrubGo (cs.length + f + 1) acc (c :: (cs ++ '"' :: rest)) := by
          simp only [List.length_cons, List.cons_append]
          congr 1
          omega
      _ = scrubGo (cs.length + f) (c :: acc) (cs ++ '"' :: rest) := step
      _ = scrubGo f (cs.reverse ++ (c :: acc)) ('"' :: rest) := ih f (c :: acc) rest htail
      _ = scrubGo f ((c :: cs).reverse ++ acc) ('"' :: rest) := by
          simp

/-- C4 counterexample: a quoted identifier containing `--` is **not** copied
through verbatim — the scrubber emits only the opening quote and the prefix
before `--`, then treats the rest as a line comment. -/
theorem quotedIdent_counterexample :
    removeCommentsAndStrings "SELECT \"a--b\" FROM t" = "SELECT \"a" ∧
      removeCommentsAndStrings "SELECT \"a--b\" FROM t" ≠ "SELECT \"a--b\" FROM t" := by
  constructor
  · decide
  · decide

/-- C4 amended: when scrub meets a double quote whose heuristic says
identifier, it emits the opening quote and continues scanning the span with
the ordinary rules; the whole span (opening quote, content and closing
quote) is copied through verbatim provided the content contains no `--` or
`/*` pair and no single or double quote, and the heuristic is also negative
at the closing quote (the content's trailing characters do not end in a
comparison operator). -/
theorem scrub_quotedIdent (content rest acc : List Char) (f : Nat)
    (hsafe : quoteSafe content = true)
    (hopen : isLit acc = false)
    (hclose : isLit (content.reverse ++ '"' :: acc) = false) :
    scrubGo (content.length + 2 + f) acc ('"' :: (content ++ '"' :: rest)) =
      scrubGo f ('"' :: (content.reverse ++ '"' :: acc)) rest := by
  calc scrubGo (content.length + 2 + f) acc ('"' :: (content ++ '"' :: rest))
      = scrubGo (content.length + (1 + f) + 1) acc ('"' :: (content ++ '"' :: rest)) := by
        congr 1
        omega
    _ = scrubGo (content.length + (1 + f)) ('"' :: acc) (content ++ '"' :: rest) :=
        scrubGo_step_identQuote _ acc _ hopen
    _ = scrubGo (1 + f) (content.reverse ++ '"' :: acc) ('"' :: rest) :=
        scrubGo_copy content (1 + f) ('"' :: acc) rest hsafe
    _ = scrubGo (f + 1) (content.reverse ++ '"' :: acc) ('"' :: rest) := by
        congr 1
        omega
    _ = scrubGo f ('"' :: (content.reverse ++ '"' :: acc)) rest :=
        scrubGo_step_identQuote f _ rest hclose

/-- C4 witness: the span `"user table"` is copied verbatim. -/
theorem scrub_quotedIdent_witness :
    scrubGo ("user table".toList.length + 2 + " FROM t".toList.length) []
        ('"' :: ("user table".toList ++ '"' :: " FROM t".toList)) =
      scrubGo " FROM t".toList.length
        ('"' :: ("user table".toList.reverse ++ '"' :: [])) " FROM t".toList :=
  scrub_quotedIdent "user table".toList " FROM t".toList [] " FROM t".toList.length
    (by decide) (by decide) (by decide)

/-! ## Claim C5: unterminated block comment -/

/-- C5.  The code does not skip an unterminated block comment all the way to
the end of the input: the guard `i < sql.length - 1` leaves the final
character unconsumed, so it is emitted.  On `"a /*bc"` the claim demands
`"a"`, but the code produces `"a c"`. -/
theorem unterminatedBlockComment_eval :
    removeCommentsAndStrings "a /*bc" = "a c" ∧ ("a c" : String) ≠ "a" := by
  constructor
  · decide
  · decide

/-! ## Claim C6: idempotence of scrubbing -/

/-- No adjacent pair of characters opens a line or block comment. -/
def noDelimPairs : List Char → Bool
  | [] => true
  | [_] => true
  | c :: d :: cs =>
    decide (¬(c = '-' ∧ d = '-') ∧ ¬(c = '/' ∧ d = '*')) && noDelimPairs (d :: cs)

/-- A string in which the scrub pass finds nothing to do: no quote characters
and no comment-opening pairs. -/
def scrubClean (l : List Char) : Bool :=
  (l.all fun c => decide (c ≠ '\'' ∧ c ≠ '"')) && noDelimPairs l

theorem scrubClean_cons (c : Char) (cs : List Char) (h : scrubClean (c :: cs) = true) :
    c ≠ '\'' ∧ c ≠ '"' ∧ ¬(c = '-' ∧ cs.head? = some '-') ∧
      ¬(c = '/' ∧ cs.head? = some '*') ∧ scrubClean cs = true := by
  rw [scrubClean, Bool.and_eq_true, List.all_cons, Bool.and_eq_true, decide_eq_true_eq] at h
  obtain ⟨⟨⟨hq, hd⟩, hall⟩, hpairs⟩ := h
  cases cs with
  | nil =>
    exact ⟨hq, hd, by rintro ⟨-, hh⟩; simp at hh, by rintro ⟨-, hh⟩; simp at hh,
      by rw [scrubClean, noDelimPairs]; simp⟩
  | cons d ds =>
    rw [noDelimPairs, Bool.and_eq_true, decide_eq_true_eq] at hpairs
    obtain ⟨⟨hp1, hp2⟩, htail⟩ := hpairs
    refine ⟨hq, hd, ?_, ?_, ?_⟩
    · rintro ⟨hc, hh⟩
      simp only [List.head?_cons, Option.some.injEq] at hh
      exact hp1 ⟨hc, hh⟩
    · rintro ⟨hc, hh⟩
      simp only [List.head?_cons, Option.some.injEq] at hh
      exact hp2 ⟨hc, hh⟩
    · rw [scrubClean, Bool.and_eq_true]
      exact ⟨hall, htail⟩

/-- On a scrub-clean string the character loop is a plain copy. -/
theorem scrubGo_inert (l : List Char) :
    ∀ (f : Nat) (acc : List Char), scrubClean l = true → l.length ≤ f →
      scrubGo f acc l = acc.reverse ++ l := by
  induction l with
  | nil =>
    intro f acc _ _
    cases f <;> simp [scrubGo]
  | cons c cs ih =>
    intro f acc h hf
    obtain ⟨h3, h4, hp1, hp2, htail⟩ := scrubClean_cons c cs h
    cases f with
    | zero => simp at hf
    | succ f' =>
      rw [scrubGo_step_regular f' acc c cs hp1 hp2 h3 h4]
      rw [ih f' (c :: acc) htail (by simpa using hf)]
      simp

/-- Induction on a list by its first two elements. -/
theorem twoStepInd {P : List Char → Prop} (h0 : P []) (h1 : ∀ c, P [c])
    (h2 : ∀ c d cs, P (d :: cs) → P (c :: d :: cs)) : ∀ l, P l
  | [] => h0
  | [c] => h1 c
  | c :: d :: cs => h2 c d cs (twoStepInd h0 h1 h2 (d :: cs))

/-- Normal form of the whitespace collapse: every whitespace character is a
space and no two adjacent characters are both whitespace. -/
def wsNormal : List Char → Bool
  | [] => true
  | [c] => decide (isWsB c = true → c = ' ')
  | c :: d :: cs =>
    decide ((isWsB c = true → c = ' ') ∧ ¬(isWsB c = true ∧ isWsB d = true)) &&
      wsNormal (d :: cs)

theorem wsNormal_cons_elim (x y : Char) (ys : List Char)
    (h : wsNormal (x :: y :: ys) = true) :
    (isWsB x = true → x = ' ') ∧ ¬(isWsB x = true ∧ isWsB y = true) ∧
      wsNormal (y :: ys) = true := by
  rw [wsNormal, Bool.and_eq_true, decide_eq_true_eq] at h
  exact ⟨h.1.1, h.1.2, h.2⟩

theorem wsNormal_cons_of (x : Char) (l : List Char)
    (hx : isWsB x = true → x = ' ')
    (hadj : ∀ y, l.head? = some y → ¬(isWsB x = true ∧ isWsB y = true))
    (hl : wsNormal l = true) : wsNormal (x :: l) = true := by
  cases l with
  | nil =>
    by_cases hw : isWsB x = true
    · simp [wsNormal, hw, hx hw]
    · have hw' : isWsB x = false := by simpa using hw
      simp [wsNormal, hw']
  | cons y ys =>
    rw [wsNormal, Bool.and_eq_true, decide_eq_true_eq]
    exact ⟨⟨hx, hadj y rfl⟩, hl⟩

theorem wsNormal_tail (x : Char) (l : List Char) (h : wsNormal (x :: l) = true) :
    wsNormal l = true := by
  cases l with
  | nil => rw [wsNormal]
  | cons y ys => exact (wsNormal_cons_elim x y ys h).2.2

theorem collapseWs_head (d : Char) (cs : List Char) (h : isWsB d = false) :
    (collapseWs (d :: cs)).head? = some d := by
  cases cs with
  | nil => simp [collapseWs, h]
  | cons e es => simp [collapseWs, h]

theorem wsNormal_collapseWs : ∀ l, wsNormal (collapseWs l) = true := by
  refine twoStepInd ?_ ?_ ?_
  · rw [collapseWs, wsNormal]
  · intro c
    by_cases h : isWsB c <;> simp [collapseWs, wsNormal, h]
  · intro c d cs ih
    by_cases hcd : isWsB c = true ∧ isWsB d = true
    · rw [collapseWs]
      simp only [hcd.1, hcd.2, Bool.and_self, if_pos]
      exact ih
    · rw [collapseWs]
      have hb : (isWsB c && isWsB d) = false := by
        by_cases h1 : isWsB c = true
        · by_cases h2 : isWsB d = true
          · exact absurd ⟨h1, h2⟩ hcd
          · have h2' : isWsB d = false := by simpa using h2
            simp [h2']
        · have h1' : isWsB c = false := by simpa using h1
          simp [h1']
      rw [hb]
      simp only [Bool.false_eq_true, if_false]
      apply wsNormal_cons_of
      · intro hw
        by_cases hc : isWsB c = true
        · simp [hc]
        · rw [if_neg (by simpa using hc)] at hw
          exact absurd hw (by simpa using hc)
      · intro y hy hxy
        by_cases hc : isWsB c = true
        · have hd : isWsB d = false := by
            by_cases h2 : isWsB d = true
            · exact absurd ⟨hc, h2⟩ hcd
            · simpa using h2
          rw [collapseWs_head d cs hd] at hy
          cases hy
          rw [hd] at hxy
          exact absurd hxy.2 (by simp)
        · rw [if_neg (by simpa using hc)] at hxy
          exact hc hxy.1
      · exact ih

theorem collapseWs_eq_self : ∀ l, wsNormal l = true → collapseWs l = l := by
  refine twoStepInd ?_ ?_ ?_
  · intro _
    rw [collapseWs]
  · intro c h
    rw [wsNormal, decide_eq_true_eq] at h
    rw [collapseWs]
    by_cases hc : isWsB c
    · rw [if_pos hc, h hc]
    · rw [if_neg hc]
  · intro c d cs ih h
    obtain ⟨hx, hadj, htail⟩ := wsNormal_cons_elim c d cs h
    rw [collapseWs]
    have hb : (isWsB c && isWsB d) = false := by
      by_cases h1 : isWsB c = true
      · by_cases h2 : isWsB d = true
        · exact absurd ⟨h1, h2⟩ hadj
        · have h2' : isWsB d = false := by simpa using h2
          simp [h2']
      · have h1' : isWsB c = false := by simpa using h1
        simp [h1']
    rw [hb]
    simp only [Bool.false_eq_true, if_false]
    rw [ih htail]
    by_cases hc : isWsB c = true
    · rw [if_pos hc, hx hc]
    · rw [if_neg (by simpa using hc)]

theorem wsNormal_dropWhile (l : List Char) (h : wsNormal l = true) :
    wsNormal (l.dropWhile isWsB) = true := by
  induction l with
  | nil => simpa using h
  | cons c cs ih =>
    rw [List.dropWhile_cons]
    by_cases hc : isWsB c = true
    · rw [if_pos hc]
      exact ih (wsNormal_tail c cs h)
    · rw [if_neg (by simpa using hc)]
      exact h

theorem wsNormal_iff_chain : ∀ l, (wsNormal l = true ↔
    ((∀ c ∈ l, isWsB c = true → c = ' ') ∧
      List.Chain' (fun a b => ¬(isWsB a = true ∧ isWsB b = true)) l)) := by
  refine twoStepInd ?_ ?_ ?_
  · simp [wsNormal]
  · intro c
    rw [wsNormal, decide_eq_true_eq]
    simp
  · intro c d cs ih
    rw [wsNormal, Bool.and_eq_true, decide_eq_true_eq, ih, List.chain'_cons]
    constructor
    · rintro ⟨⟨h1, h2⟩, hmem, hch⟩
      refine ⟨?_, h2, hch⟩
      intro x hx
      rcases List.mem_cons.1 hx with rfl | hx
      · exact h1
      · exact hmem x hx
    · rintro ⟨hmem, h2, hch⟩
      exact ⟨⟨hmem c (List.mem_cons_self _ _), h2⟩,
        fun x hx => hmem x (List.mem_cons_of_mem _ hx), hch⟩

theorem wsNormal_reverse (l : List Char) (h : wsNormal l = true) :
    wsNormal l.reverse = true := by
  rw [wsNormal_iff_chain] at h ⊢
  obtain ⟨hmem, hch⟩ := h
  refine ⟨by simpa using hmem, ?_⟩
  rw [List.chain'_reverse]
  exact List.Chain'.imp (fun a b hab => by tauto) hch

theorem wsNormal_trimList (l : List Char) (h : wsNormal l = true) :
    wsNormal (trimList l) = true := by
  rw [trimList]
  exact wsNormal_reverse _ (wsNormal_dropWhile _ (wsNormal_reverse _ (wsNormal_dropWhile _ h)))

theorem dropWhile_dropWhile (p : Char → Bool) (l : List Char) :
    (l.dropWhile p).dropWhile p = l.dropWhile p := by
  induction l with
  | nil => rfl
  | cons a l ih =>
    rw [List.dropWhile_cons]
    by_cases h : p a = true
    · rw [if_pos h]
      exact ih
    · rw [if_neg (by simpa using h), List.dropWhile_cons, if_neg (by simpa using h)]

theorem head?_dropWhile_not (p : Char → Bool) (l : List Char) :
    ∀ c, (l.dropWhile p).head? = some c → p c = false := by
  induction l with
  | nil => simp
  | cons a l ih =>
    intro c hc
    rw [List.dropWhile_cons] at hc
    by_cases h : p a = true
    · rw [if_pos h] at hc
      exact ih c hc
    · rw [if_neg (by simpa using h)] at hc
      cases hc
      simpa using h

theorem getLast?_dropWhile (p : Char → Bool) (l : List Char)
    (hne : l.dropWhile p ≠ []) : (l.dropWhile p).getLast? = l.getLast? := by
  induction l with
  | nil => simp at hne
  | cons a l ih =>
    rw [List.dropWhile_cons] at hne ⊢
    by_cases h : p a = true
    · rw [if_pos h] at hne ⊢
      rw [ih hne]
      have hl : l ≠ [] := by
        rintro rfl
        simp at hne
      obtain ⟨b, l', rfl⟩ := List.exists_cons_of_ne_nil hl
      rw [List.getLast?_cons_cons]
    · rw [if_neg (by simpa using h)]

theorem dropWhile_eq_self_of_head (p : Char → Bool) (l : List Char)
    (h : ∀ c, l.head? = some c → p c = false) : l.dropWhile p = l := by
  cases l with
  | nil => rfl
  | cons a l =>
    rw [List.dropWhile_cons, if_neg]
    have := h a rfl
    simp [this]

theorem trimList_idem (l : List Char) : trimList (trimList l) = trimList l := by
  rw [trimList, trimList]
  by_cases hzn : (l.dropWhile isWsB).reverse.dropWhile isWsB = []
  · rw [hzn]
    simp
  · have h1 : ((l.dropWhile isWsB).reverse.dropWhile isWsB).reverse.dropWhile isWsB =
        ((l.dropWhile isWsB).reverse.dropWhile isWsB).reverse := by
      apply dropWhile_eq_self_of_head
      intro c hc
      rw [List.head?_reverse] at hc
      rw [getLast?_dropWhile _ _ hzn, List.getLast?_reverse] at hc
      exact head?_dropWhile_not isWsB l c hc
    rw [h1, List.reverse_reverse, dropWhile_dropWhile]

theorem normalizeWs_idem (l : List Char) : normalizeWs (normalizeWs l) = normalizeWs l := by
  rw [normalizeWs, normalizeWs,
    collapseWs_eq_self _ (wsNormal_trimList _ (wsNormal_collapseWs l)), trimList_idem]

/-- C6 counterexample: scrubbing is not idempotent — on a dash, a block
comment and another dash, removal juxtaposes the two dashes into `--`,
which a second pass removes as a line comment. -/
theorem scrub_not_idempotent :
    removeCommentsAndStrings (removeCommentsAndStrings "-/*x*/-") ≠
      removeCommentsAndStrings "-/*x*/-" := by
  decide

/-- C6 amended: scrubbing is idempotent on every input whose scrubbed output
is free of remaining comment and string delimiters (no single or double
quote and no `--`/`/*` pair); in general removal can juxtapose characters
into new delimiters and a second pass removes more. -/
theorem scrub_idempotent_of_clean (s : String)
    (h : scrubClean (removeCommentsAndStrings s).toList = true) :
    removeCommentsAndStrings (removeCommentsAndStrings s) = removeCommentsAndStrings s := by
  have key : removeCommentsAndStrings (removeCommentsAndStrings s) =
      String.mk (normalizeWs (removeCommentsAndStrings s).toList) := by
    rw [removeCommentsAndStrings]
    rw [scrubGo_inert _ _ [] h (le_refl _)]
    simp
  rw [key]
  have hdata : (removeCommentsAndStrings s).toList =
      normalizeWs (scrubGo s.toList.length [] s.toList) := rfl
  rw [hdata, normalizeWs_idem]
  rfl

/-- C6 witness: a query whose scrub output is delimiter-free. -/
theorem scrub_idempotent_of_clean_witness :
    removeCommentsAndStrings (removeCommentsAndStrings "SELECT * FROM users -- note") =
      removeCommentsAndStrings "SELECT * FROM users -- note" :=
  scrub_idempotent_of_clean "SELECT * FROM users -- note" (by decide)

/-! ## Claim C7: function-call suppression and keyword roles -/

/-- C7.  A match whose capture is immediately followed (ignoring whitespace)
by `(` is suppressed exactly when the re-extracted triggering keyword has a
table-source role — it is `FROM`, contains `JOIN`, or is `USING`; keywords in
a target-of-mutation role (`INTO`, `UPDATE`, `MERGE INTO`, ...) never
suppress.  In particular on the generate_series scenario `allTables`
excludes `generate_series` but includes `users`. -/
theorem skipMatch_iff_tableSourceRole :
    (∀ (patterns : List (List Char)) (m0 rest : List Char) (kw : String),
      isFunctionCall rest = true →
      extractKeyword patterns m0 = some kw →
      (skipMatch patterns m0 rest = true ↔
        (kw = "FROM" ∨ containsSeq kw.toList "JOIN".toList = true ∨ kw = "USING"))) ∧
    (extractTableNames
        "SELECT * FROM generate_series(1,100) t JOIN users u ON t.id=u.id" {}).allTables =
      ["users"] := by
  constructor
  · intro patterns m0 rest kw hcall hkw
    rw [skipMatch, hcall, hkw]
    simp [isFunctionContext, or_assoc]
  · decide

/-- C7 witness: the suppression rule at concrete inputs — a parenthesized
capture after `FROM` is suppressed, and after `INTO` it is not. -/
theorem skipMatch_iff_tableSourceRole_witness :
    (skipMatch ["FROM".toList] "FROM generate_series".toList "(1,100)".toList = true ↔
      (("FROM" : String) = "FROM" ∨
        containsSeq ("FROM" : String).toList "JOIN".toList = true ∨
        ("FROM" : String) = "USING")) ∧
    (skipMatch ["INTO".toList] "INTO target_table".toList "(col1)".toList = true ↔
      (("INTO" : String) = "FROM" ∨
        containsSeq ("INTO" : String).toList "JOIN".toList = true ∨
        ("INTO" : String) = "USING")) :=
  ⟨(skipMatch_iff_tableSourceRole.1 ["FROM".toList] "FROM generate_series".toList
      "(1,100)".toList "FROM" (by decide) (by decide)),
   (skipMatch_iff_tableSourceRole.1 ["INTO".toList] "INTO target_table".toList
      "(col1)".toList "INTO" (by decide) (by decide))⟩

/-! ## Claim C8: resolution policy -/

/-- C8 counterexample: resolution does not ignore `fullyQualifiedName`
matches.  With catalog entries `a ↦ (tableName x, fqn t)` then
`b ↦ (tableName t, fqn s.t)`, resolving `"t"` hits the first entry's
`fullyQualifiedName === tableName` check and returns `"t"`, not the claimed
`"s.t"` from the first `tableName` match. -/
theorem resolveTableName_counterexample :
    resolveTableName "t" (some [("a", ⟨"x", "t", none, none⟩),
                                ("b", ⟨"t", "s.t", none, none⟩)]) = "t" ∧
      ("t" : String) ≠ "s.t" := by
  constructor
  · decide
  · decide

/-- C8 amended: exact key match wins first; otherwise the first entry in
catalog iteration order whose `tableName` equals the bare form of the
identifier **or** whose `fullyQualifiedName` equals the identifier wins
(returning its `fullyQualifiedName`, which in the latter case is the
identifier itself); otherwise the identifier is returned unchanged. -/
theorem resolveTableName_spec (tn : String) (kt : Catalog) :
    resolveTableName tn (some kt) =
      match kt.find? (fun e => e.1 == tn) with
      | some e => e.2.fullyQualifiedName
      | none =>
        match kt.find? (fun e =>
            e.2.tableName == tableWithoutSchema tn || e.2.fullyQualifiedName == tn) with
        | some e => e.2.fullyQualifiedName
        | none => tn := by
  have loopSpec : ∀ l : Catalog, l.find? (fun e => e.1 == tn) = none →
      resolveLoop tn (tableWithoutSchema tn) l =
        match l.find? (fun e =>
            e.2.tableName == tableWithoutSchema tn || e.2.fullyQualifiedName == tn) with
        | some e => e.2.fullyQualifiedName
        | none => tn := by
    intro l h
    induction l with
    | nil => simp [resolveLoop]
    | cons hd tl ih =>
      rw [List.find?_eq_none] at h
      have hkey : ¬ hd.1 = tn := by
        have := h hd (List.mem_cons_self _ _)
        simpa using this
      have htl : tl.find? (fun e => e.1 == tn) = none :=
        List.find?_eq_none.mpr fun x hx => h x (List.mem_cons_of_mem _ hx)
      obtain ⟨key, md⟩ := hd
      simp only at hkey
      by_cases h1 : md.tableName = tableWithoutSchema tn
      · simp [resolveLoop, hkey, h1, List.find?]
      · by_cases h2 : md.fullyQualifiedName = tn
        · simp [resolveLoop, hkey, h1, h2, List.find?]
        · have b1 : (md.tableName == tableWithoutSchema tn) = false :=
            beq_eq_false_iff_ne.mpr h1
          have b2 : (md.fullyQualifiedName == tn) = false :=
            beq_eq_false_iff_ne.mpr h2
          simp only [resolveLoop, if_neg hkey, if_neg h1, if_neg h2]
          rw [ih htl]
          simp [List.find?, b1, b2]
  simp only [resolveTableName]
  cases hfind : kt.find? (fun e => e.1 == tn) with
  | none => exact loopSpec kt hfind
  | some e => rfl

/-! ## Claim C9: the convenience entry point -/

/-- C9.  `getTableNamesSimple sql knownTables` equals the `realTables` of the
full extraction result (run with `filterCTEs: !!knownTables`) when a catalog
was given, and its `allTables` when no catalog was given. -/
theorem getTableNamesSimple_spec (sql : String) (kts : Option Catalog) :
    (∀ kt, kts = some kt →
      getTableNamesSimple sql kts =
        (extractTableNames sql { knownTables := kts, filterCTEs := true }).realTables) ∧
    (kts = none →
      getTableNamesSimple sql kts =
        (extractTableNames sql { knownTables := none, filterCTEs := false }).allTables) := by
  constructor
  · intro kt h
    subst h
    simp [getTableNamesSimple]
  · intro h
    subst h
    simp [getTableNamesSimple]

/-- C9 witness: both branches at concrete inputs. -/
theorem getTableNamesSimple_spec_witness :
    getTableNamesSimple "SELECT * FROM users"
        (some [("users", ⟨"users", "users", none, none⟩)]) =
      (extractTableNames "SELECT * FROM users"
        { knownTables := some [("users", ⟨"users", "users", none, none⟩)],
          filterCTEs := true }).realTables ∧
    getTableNamesSimple "SELECT * FROM users" none =
      (extractTableNames "SELECT * FROM users"
        { knownTables := none, filterCTEs := false }).allTables :=
  ⟨(getTableNamesSimple_spec _ _).1 _ rfl, (getTableNamesSimple_spec _ _).2 rfl⟩

/-! ## Claim C10: an empty catalog -/

/-- C10.  A present-but-empty catalog still activates CTE filtering, every
identifier is classified as unknown, and `getTableNamesSimple` returns the
empty `realTables` — while without a catalog it returns the (possibly
nonempty) `allTables`. -/
theorem getTableNamesSimple_emptyCatalog (sql : String) :
    getTableNamesSimple sql (some []) = [] ∧
      getTableNamesSimple sql none = (extractTableNames sql {}).allTables := by
  constructor
  · simp [getTableNamesSimple, extractTableNames, isKnownTable]
  · simp [getTableNamesSimple]

end SqlTablesParser
